import Mathlib

/-
  Verification development for the ase-examples repository.

  The repository consists of tutorial notebooks driving the ASE toolkit.
  The algorithmic machinery exercised by the notebooks is:
  - a genetic-algorithm candidate store and population (GA notebooks,
    src/unnamed/part_000 and src/unnamed/part_001), and
  - a key-value results database with a reservation protocol
    (src/unnamed/part_005).
  The store, population and database primitives live in the external ASE
  library, so they are modelled here from the natural-language spec
  (spec.md sections 3, 4.1, 4.2 and 5); the notebook loops themselves are
  embedded directly from the source cells.
-/

namespace AseGA

/-- Modelled from the spec: a Candidate record in the store -- "a structure
(set of particle positions/species/cell) plus metadata: unique identifier,
generation/age, relaxation state (unrelaxed/relaxed), raw fitness score
(defined once relaxed), and provenance".  The structure itself is kept
abstract as a type parameter; the raw score is a rational; provenance is an
optional tag. -/
structure GARecord (α : Type) where
  gaid : Nat
  atoms : α
  relaxed : Bool
  raw_score : Option ℚ
  origin : Option Nat
deriving DecidableEq, Repr

/-- Modelled from the spec: the Store, an "append-only ledger of all
Candidates ever created, indexed by identifier".  `next_id` supplies fresh
identifiers. -/
structure GAStore (α : Type) where
  next_id : Nat
  recs : List (GARecord α)
deriving DecidableEq, Repr

/-- Modelled from the spec: "add an unrelaxed candidate (with optional
provenance description)".  A fresh identifier is allocated; the record is
unrelaxed and carries no raw score. -/
def add_unrelaxed_candidate {α : Type} (s : GAStore α) (a : α) (d : Option Nat) :
    GAStore α :=
  { next_id := s.next_id + 1
    recs := s.recs ++ [⟨s.next_id, a, false, none, d⟩] }

/-- Modelled from the spec: recording an additional unrelaxed step of a
candidate (used by the pool GA when a mutation succeeds); like adding an
unrelaxed candidate, it introduces an unrelaxed, score-free record under a
fresh identifier. -/
def add_unrelaxed_step {α : Type} (s : GAStore α) (a : α) (d : Option Nat) :
    GAStore α :=
  { next_id := s.next_id + 1
    recs := s.recs ++ [⟨s.next_id, a, false, none, d⟩] }

/-- Modelled from the spec: "retrieve one unrelaxed candidate (any one, no
ordering guarantee)"; this model returns the first unrelaxed record. -/
def get_an_unrelaxed_candidate {α : Type} (s : GAStore α) : Option (GARecord α) :=
  s.recs.find? (fun r => !r.relaxed)

/-- Modelled from the spec: "query count of unrelaxed candidates". -/
def get_number_of_unrelaxed_candidates {α : Type} (s : GAStore α) : Nat :=
  (s.recs.filter (fun r => !r.relaxed)).length

/-- Modelled from the spec: "mark a candidate relaxed with its fitness".
The record of the given identifier is replaced by its relaxed version
carrying the relaxed structure and the raw score. -/
def add_relaxed_step {α : Type} (s : GAStore α) (id : Nat) (a : α) (sc : ℚ) :
    GAStore α :=
  { s with
    recs := s.recs.map (fun r =>
      if r.gaid = id then { r with atoms := a, relaxed := true, raw_score := some sc }
      else r) }

/-- Modelled from the spec: "retrieve all relaxed candidates". -/
def get_all_relaxed_candidates {α : Type} (s : GAStore α) : List (GARecord α) :=
  s.recs.filter (fun r => r.relaxed)

/-- Store well-formedness: identifiers are pairwise distinct and below the
next fresh identifier.  Every store built by the modelled operations from
an empty store satisfies this. -/
def wf {α : Type} (s : GAStore α) : Prop :=
  (s.recs.map (fun r => r.gaid)).Nodup ∧ ∀ r ∈ s.recs, r.gaid < s.next_id

/-- Invariant of spec section 3: "every Candidate's fitness is defined only
after relaxation" -- an unrelaxed record carries no raw score. -/
def unrelaxed_no_score {α : Type} (s : GAStore α) : Prop :=
  ∀ r ∈ s.recs, r.relaxed = false → r.raw_score = none

/-- Identifiers currently present in the store. -/
def gaids {α : Type} (s : GAStore α) : List Nat :=
  s.recs.map (fun r => r.gaid)

/-- The database-preparation cells of both GA notebooks add each member of
the starting population as an unrelaxed candidate to a fresh store. -/
def init_store {α : Type} (l : List α) : GAStore α :=
  l.foldl (fun s a => add_unrelaxed_candidate s a none) ⟨0, []⟩

lemma unrelaxed_no_score_add_unrelaxed {α : Type} (s : GAStore α) (a : α)
    (d : Option Nat) (h : unrelaxed_no_score s) :
    unrelaxed_no_score (add_unrelaxed_candidate s a d) := by
  intro r hr hrel
  rcases List.mem_append.mp hr with h1 | h2
  · exact h r h1 hrel
  · simp only [List.mem_singleton] at h2
    subst h2
    rfl

lemma unrelaxed_no_score_add_step {α : Type} (s : GAStore α) (a : α)
    (d : Option Nat) (h : unrelaxed_no_score s) :
    unrelaxed_no_score (add_unrelaxed_step s a d) := by
  intro r hr hrel
  rcases List.mem_append.mp hr with h1 | h2
  · exact h r h1 hrel
  · simp only [List.mem_singleton] at h2
    subst h2
    rfl

lemma unrelaxed_no_score_add_relaxed {α : Type} (s : GAStore α) (id : Nat)
    (a : α) (sc : ℚ) (h : unrelaxed_no_score s) :
    unrelaxed_no_score (add_relaxed_step s id a sc) := by
  intro r hr hrel
  rcases List.mem_map.mp hr with ⟨x, hx, hfx⟩
  by_cases hid : x.gaid = id
  · rw [if_pos hid] at hfx
    subst hfx
    simp at hrel
  · rw [if_neg hid] at hfx
    subst hfx
    exact h x hx hrel

lemma unrelaxed_no_score_init {α : Type} (l : List α) :
    unrelaxed_no_score (init_store l) := by
  have H : ∀ (l : List α) (s : GAStore α), unrelaxed_no_score s →
      unrelaxed_no_score (l.foldl (fun s a => add_unrelaxed_candidate s a none) s) := by
    intro l
    induction l with
    | nil => intro s hs; exact hs
    | cons x xs ih =>
        intro s hs
        exact ih _ (unrelaxed_no_score_add_unrelaxed s x none hs)
  exact H l ⟨0, []⟩ (by intro r hr; simp at hr)

/-- Relaxation of one candidate, embedded from the relax-unrelaxed loops of
both GA notebooks (part_000: BFGS relaxation with the EMT calculator then
raw_score assignment; part_001: the relax function).  The evaluation
collaborator `ev` is external per spec section 4.4: it returns the relaxed
structure and the raw score.  The loop body retrieves one unrelaxed
candidate, evaluates it, and marks it relaxed with its fitness. -/
def relax_one {α : Type} (ev : α → α × ℚ) (s : GAStore α) : GAStore α :=
  match get_an_unrelaxed_candidate s with
  | none => s
  | some r => add_relaxed_step s r.gaid (ev r.atoms).1 (ev r.atoms).2

/-- Bounded iteration of `relax_one`: runs the loop body while unrelaxed
candidates remain, up to the given number of iterations. -/
def relax_steps {α : Type} (ev : α → α × ℚ) : Nat → GAStore α → GAStore α
  | 0, s => s
  | n + 1, s =>
      if 0 < get_number_of_unrelaxed_candidates s then
        relax_steps ev n (relax_one ev s)
      else s

/-- The relax-all loop of both GA notebooks: `while
get_number_of_unrelaxed_candidates() > 0: relax one candidate`.  Each
iteration strictly decreases the number of unrelaxed candidates, so the
initial count bounds the number of iterations; running `relax_steps` with
that bound is exactly running the while loop to completion. -/
def relax_all {α : Type} (ev : α → α × ℚ) (s : GAStore α) : GAStore α :=
  relax_steps ev (get_number_of_unrelaxed_candidates s) s

lemma map_eq_self_of_fix {α : Type} (f : GARecord α → GARecord α) :
    ∀ l : List (GARecord α), (∀ x ∈ l, f x = x) → l.map f = l := by
  intro l
  induction l with
  | nil => intro _; rfl
  | cons x xs ih =>
      intro h
      simp only [List.map_cons]
      rw [h x (List.mem_cons_self x xs), ih (fun y hy => h y (List.mem_cons_of_mem x hy))]

/-- The relaxation-marking map used by `add_relaxed_step`. -/
def mark_map {α : Type} (id : Nat) (a : α) (sc : ℚ) (r : GARecord α) : GARecord α :=
  if r.gaid = id then { r with atoms := a, relaxed := true, raw_score := some sc } else r

lemma mark_ite_le {α : Type} (id : Nat) (a : α) (sc : ℚ) (x : GARecord α) :
    (if (!(mark_map id a sc x).relaxed) = true then 1 else 0) ≤
      (if (!x.relaxed) = true then 1 else 0) := by
  unfold mark_map
  by_cases hid : x.gaid = id
  · rw [if_pos hid]
    simp
  · rw [if_neg hid]

lemma countP_map_mark_le {α : Type} (id : Nat) (a : α) (sc : ℚ) :
    ∀ l : List (GARecord α),
      (l.map (mark_map id a sc)).countP (fun r => !r.relaxed) ≤
        l.countP (fun r => !r.relaxed) := by
  intro l
  induction l with
  | nil => simp
  | cons x xs ih =>
      simp only [List.map_cons, List.countP_cons]
      exact Nat.add_le_add ih (mark_ite_le id a sc x)

lemma countP_map_mark_lt {α : Type} (a : α) (sc : ℚ) (r : GARecord α) :
    ∀ l : List (GARecord α), r ∈ l → r.relaxed = false →
      (l.map (mark_map r.gaid a sc)).countP (fun x => !x.relaxed) <
        l.countP (fun x => !x.relaxed) := by
  intro l
  induction l with
  | nil => intro h; exact absurd h (List.not_mem_nil r)
  | cons x xs ih =>
      intro hmem hrel
      simp only [List.map_cons, List.countP_cons]
      rcases List.mem_cons.mp hmem with hx | hx
      · subst hx
        have e1 : (if (!(mark_map r.gaid a sc r).relaxed) = true then 1 else 0) = 0 := by
          unfold mark_map
          simp
        have e2 : (if (!r.relaxed) = true then 1 else 0) = 1 := by simp [hrel]
        rw [e1, e2]
        have := countP_map_mark_le r.gaid a sc xs
        omega
      · have h1 := ih hx hrel
        have h2 := mark_ite_le r.gaid a sc x
        omega

lemma add_relaxed_step_recs {α : Type} (s : GAStore α) (id : Nat) (a : α) (sc : ℚ) :
    (add_relaxed_step s id a sc).recs = s.recs.map (mark_map id a sc) := by
  rfl

lemma count_pos_find {α : Type} (s : GAStore α)
    (h : 0 < get_number_of_unrelaxed_candidates s) :
    ∃ r, get_an_unrelaxed_candidate s = some r := by
  unfold get_number_of_unrelaxed_candidates at h
  rcases List.exists_mem_of_length_pos h with ⟨r, hr⟩
  have hmem := List.mem_filter.mp hr
  have : ∃ x, s.recs.find? (fun x => !x.relaxed) = some x := by
    rw [← Option.isSome_iff_exists]
    rw [List.find?_isSome]
    exact ⟨r, hmem.1, hmem.2⟩
  exact this

lemma find_unrelaxed_props {α : Type} (s : GAStore α) (r : GARecord α)
    (h : get_an_unrelaxed_candidate s = some r) :
    r ∈ s.recs ∧ r.relaxed = false := by
  unfold get_an_unrelaxed_candidate at h
  refine ⟨List.mem_of_find?_eq_some h, ?_⟩
  have := List.find?_some h
  simpa using this

lemma count_relax_one_lt {α : Type} (ev : α → α × ℚ) (s : GAStore α)
    (h : 0 < get_number_of_unrelaxed_candidates s) :
    get_number_of_unrelaxed_candidates (relax_one ev s) <
      get_number_of_unrelaxed_candidates s := by
  rcases count_pos_find s h with ⟨r, hr⟩
  rcases find_unrelaxed_props s r hr with ⟨hmem, hrel⟩
  unfold relax_one
  rw [hr]
  show get_number_of_unrelaxed_candidates
      (add_relaxed_step s r.gaid (ev r.atoms).1 (ev r.atoms).2) < _
  unfold get_number_of_unrelaxed_candidates
  rw [add_relaxed_step_recs, ← List.countP_eq_length_filter, ← List.countP_eq_length_filter]
  exact countP_map_mark_lt (ev r.atoms).1 (ev r.atoms).2 r s.recs hmem hrel

lemma count_relax_steps_zero {α : Type} (ev : α → α × ℚ) :
    ∀ (n : Nat) (s : GAStore α), get_number_of_unrelaxed_candidates s ≤ n →
      get_number_of_unrelaxed_candidates (relax_steps ev n s) = 0 := by
  intro n
  induction n with
  | zero =>
      intro s hs
      simpa [relax_steps] using Nat.le_zero.mp hs
  | succ n ih =>
      intro s hs
      by_cases h : 0 < get_number_of_unrelaxed_candidates s
      · rw [relax_steps, if_pos h]
        exact ih _ (Nat.le_of_lt_succ (Nat.lt_of_lt_of_le (count_relax_one_lt ev s h) hs))
      · rw [relax_steps, if_neg h]
        omega

lemma count_relax_all_zero {α : Type} (ev : α → α × ℚ) (s : GAStore α) :
    get_number_of_unrelaxed_candidates (relax_all ev s) = 0 :=
  count_relax_steps_zero ev _ s (le_refl _)

lemma relax_one_of_count_zero {α : Type} (ev : α → α × ℚ) (s : GAStore α)
    (h : get_number_of_unrelaxed_candidates s = 0) :
    relax_one ev s = s := by
  unfold relax_one
  have hnone : get_an_unrelaxed_candidate s = none := by
    unfold get_an_unrelaxed_candidate
    rw [List.find?_eq_none]
    intro x hx hpx
    unfold get_number_of_unrelaxed_candidates at h
    have : x ∈ s.recs.filter (fun r => !r.relaxed) := List.mem_filter.mpr ⟨hx, hpx⟩
    rw [List.length_eq_zero] at h
    rw [h] at this
    exact absurd this (List.not_mem_nil x)
  rw [hnone]

/-- Fitness of a population member; population members are relaxed records
so the default value is never consulted for them. -/
def pscore {α : Type} (r : GARecord α) : ℚ :=
  r.raw_score.getD 0

/-- Insertion of a record into a list kept in descending fitness order. -/
def insert_by {α : Type} (r : GARecord α) : List (GARecord α) → List (GARecord α)
  | [] => [r]
  | x :: xs => if pscore x ≤ pscore r then r :: x :: xs else x :: insert_by r xs

/-- Insertion sort by descending fitness; "ordering key is fitness
descending" per spec section 3. -/
def sort_by_score {α : Type} : List (GARecord α) → List (GARecord α)
  | [] => []
  | x :: xs => insert_by x (sort_by_score xs)

/-- One step of greedy deduplication: a record similar to an already kept
record is dropped, otherwise it is appended. -/
def dedup_step {α : Type} (comp : α → α → Bool) (acc : List (GARecord α))
    (r : GARecord α) : List (GARecord α) :=
  if acc.any (fun y => comp y.atoms r.atoms) then acc else acc ++ [r]

/-- Greedy deduplication by the structural similarity comparator, keeping
the earlier (fitter, once sorted) record of any similar pair; "deduplicated
by a structural similarity comparator" per spec section 4.2. -/
def dedup_by {α : Type} (comp : α → α → Bool) (l : List (GARecord α)) :
    List (GARecord α) :=
  l.foldl (dedup_step comp) []

/-- Modelled from the spec: Population `update` "re-derives the top-N set
from the Store after new relaxed Candidates arrive" -- all relaxed
candidates of the store, sorted by fitness descending, deduplicated by the
comparator, truncated to the population size. -/
def pop_update {α : Type} (comp : α → α → Bool) (psize : Nat) (s : GAStore α) :
    List (GARecord α) :=
  (dedup_by comp (sort_by_score (get_all_relaxed_candidates s))).take psize

/-- Total list indexing with a default, used to model sampling from the
population. -/
def pick {α : Type} (d : α) : List α → Nat → α
  | [], _ => d
  | x :: _, 0 => x
  | _ :: xs, n + 1 => pick d xs n

/-- Modelled from the spec: Population operation `select two parents`
"samples two Candidates from the population"; the sampling randomness is
abstracted into the two indices.  On an empty population there is nothing
to sample and the operation yields nothing. -/
def get_two_candidates {α : Type} (pop : List (GARecord α)) (i j : Nat) :
    Option (GARecord α × GARecord α) :=
  match pop with
  | [] => none
  | x :: xs =>
      some (pick x (x :: xs) (i % (xs.length + 1)),
            pick x (x :: xs) (j % (xs.length + 1)))

/-- Fixed configuration of the pool GA main script (part_000): the external
evaluation collaborator (BFGS relaxation plus raw score), the structural
comparator and the population size. -/
structure PoolGA (α : Type) where
  ev : α → α × ℚ
  comp : α → α → Bool
  population_size : Nat

/-- Per-iteration inputs of the pool GA main loop: the sampled parent
indices, the (stochastic) pairing operator, whether the mutation branch is
entered (`random() < mutation_probability`), and the (stochastic) mutation
operator. -/
structure PoolChoice (α : Type) where
  i1 : Nat
  i2 : Nat
  pairing : α → α → Option α
  do_mut : Bool
  mutate : α → Option α

/-- State carried through the pool GA main loop: the store and the current
population (the population object is only refreshed by `update`). -/
structure PoolState (α : Type) where
  store : GAStore α
  pop : List (GARecord α)
deriving DecidableEq

/-- One iteration of the pool GA main loop, embedded from part_000: sample
two parents; pair them, and when pairing returns failure give up on the
iteration (`if a3 is None: continue`) leaving store and population
untouched; otherwise add the child unrelaxed, optionally attempt a
mutation (on failure the unmutated child is kept), relax, set the raw
score, mark relaxed, and update the population.  `pool_accept` is the part
of the loop body after a successful pairing. -/
def mut_result {α : Type} (s1 : GAStore α) (a3 : α) (id3 : Nat) :
    Bool → Option α → GAStore α × α × Nat
  | false, _ => (s1, a3, id3)
  | true, none => (s1, a3, id3)
  | true, some a3m => (add_unrelaxed_step s1 a3m (some 1), a3m, s1.next_id)

def pool_accept {α : Type} (g : PoolGA α) (st : PoolState α) (ch : PoolChoice α)
    (a3 : α) : PoolState α :=
  let id3 := st.store.next_id
  let s1 := add_unrelaxed_candidate st.store a3 (some 0)
  let m := mut_result s1 a3 id3 ch.do_mut (ch.mutate a3)
  let ar := (g.ev m.2.1).1
  let s3 := add_relaxed_step m.1 m.2.2 ar (g.ev m.2.1).2
  { store := s3, pop := pop_update g.comp g.population_size s3 }

def pool_pair {α : Type} (g : PoolGA α) (st : PoolState α) (ch : PoolChoice α) :
    Option α → PoolState α
  | none => st
  | some a3 => pool_accept g st ch a3

def pool_sample {α : Type} (g : PoolGA α) (st : PoolState α) (ch : PoolChoice α) :
    Option (GARecord α × GARecord α) → PoolState α
  | none => st
  | some p => pool_pair g st ch (ch.pairing p.1.atoms p.2.atoms)

def pool_iter {α : Type} (g : PoolGA α) (st : PoolState α) (ch : PoolChoice α) :
    PoolState α :=
  pool_sample g st ch (get_two_candidates st.pop ch.i1 ch.i2)

/-- The pool GA main loop (`for i in range(n_to_test)` in part_000), run
over the list of per-iteration inputs. -/
def pool_run {α : Type} (g : PoolGA α) : List (PoolChoice α) → PoolState α → PoolState α
  | [], st => st
  | ch :: rest, st => pool_run g rest (pool_iter g st ch)

/-- Per-iteration inputs of the alloy GA inner loop (part_001): parent
indices and the procreation operator chosen by the operation selector. -/
structure AlloyChoice (α : Type) where
  i1 : Nat
  i2 : Nat
  op : α → α → α

/-- One iteration of the alloy GA inner loop, embedded from part_001: two
parents are sampled, the selected operator produces a child, the child is
added unrelaxed, relaxed via the relax function (which sets the raw
score), and marked relaxed.  The population is not updated inside the
inner loop. -/
def alloy_sample {α : Type} (ev : α → α × ℚ) (st : PoolState α) (c : AlloyChoice α) :
    Option (GARecord α × GARecord α) → PoolState α
  | none => st
  | some p =>
      let a3 := c.op p.1.atoms p.2.atoms
      let id3 := st.store.next_id
      let s1 := add_unrelaxed_candidate st.store a3 (some 0)
      let s3 := add_relaxed_step s1 id3 (ev a3).1 (ev a3).2
      { store := s3, pop := st.pop }

def alloy_iter {α : Type} (ev : α → α × ℚ) (st : PoolState α) (c : AlloyChoice α) :
    PoolState α :=
  alloy_sample ev st c (get_two_candidates st.pop c.i1 c.i2)

/-- One generation of the alloy GA (part_001): the inner loop runs once per
population slot, then `pop.update()` refreshes the population from the
store. -/
def alloy_generation {α : Type} (ev : α → α × ℚ) (comp : α → α → Bool)
    (psize : Nat) (st : PoolState α) (cs : List (AlloyChoice α)) : PoolState α :=
  let st2 := cs.foldl (alloy_iter ev) st
  { store := st2.store, pop := pop_update comp psize st2.store }

/-- Descending fitness order on records: the later record scores no more
than the earlier one. -/
def score_ge {α : Type} (a b : GARecord α) : Prop :=
  pscore b ≤ pscore a

lemma mem_insert_by {α : Type} (r y : GARecord α) :
    ∀ l : List (GARecord α), y ∈ insert_by r l ↔ y = r ∨ y ∈ l := by
  intro l
  induction l with
  | nil => simp [insert_by]
  | cons x xs ih =>
      by_cases h : pscore x ≤ pscore r
      · simp [insert_by, if_pos h, List.mem_cons]
      · simp [insert_by, if_neg h, List.mem_cons, ih]
        tauto

lemma sorted_insert_by {α : Type} (r : GARecord α) :
    ∀ l : List (GARecord α), List.Sorted score_ge l →
      List.Sorted score_ge (insert_by r l) := by
  intro l
  induction l with
  | nil =>
      intro _
      simp [insert_by, List.Sorted]
  | cons x xs ih =>
      intro hs
      rcases List.sorted_cons.mp hs with ⟨hx, hxs⟩
      by_cases h : pscore x ≤ pscore r
      · rw [insert_by, if_pos h]
        refine List.sorted_cons.mpr ⟨?_, hs⟩
        intro b hb
        rcases List.mem_cons.mp hb with hb | hb
        · subst hb
          exact h
        · exact le_trans (hx b hb) h
      · rw [insert_by, if_neg h]
        refine List.sorted_cons.mpr ⟨?_, ih hxs⟩
        intro b hb
        rcases (mem_insert_by r b xs).mp hb with hb | hb
        · subst hb
          exact le_of_lt (lt_of_not_le h)
        · exact hx b hb

lemma mem_sort_by_score {α : Type} (y : GARecord α) :
    ∀ l : List (GARecord α), y ∈ sort_by_score l ↔ y ∈ l := by
  intro l
  induction l with
  | nil => simp [sort_by_score]
  | cons x xs ih =>
      rw [sort_by_score, mem_insert_by, ih, List.mem_cons]

lemma sorted_sort_by_score {α : Type} :
    ∀ l : List (GARecord α), List.Sorted score_ge (sort_by_score l) := by
  intro l
  induction l with
  | nil => simp [sort_by_score, List.Sorted]
  | cons x xs ih => exact sorted_insert_by x _ ih

lemma dedup_foldl_sublist {α : Type} (comp : α → α → Bool) :
    ∀ (l acc : List (GARecord α)),
      List.Sublist (l.foldl (dedup_step comp) acc) (acc ++ l) := by
  intro l
  induction l with
  | nil => intro acc; simp
  | cons x xs ih =>
      intro acc
      simp only [List.foldl_cons]
      refine List.Sublist.trans (ih (dedup_step comp acc x)) ?_
      unfold dedup_step
      by_cases h : acc.any (fun y => comp y.atoms x.atoms)
      · rw [if_pos h]
        exact (List.sublist_cons_self x xs).append_left acc
      · rw [if_neg h]
        rw [List.append_assoc]
        simp

lemma dedup_by_sublist {α : Type} (comp : α → α → Bool) (l : List (GARecord α)) :
    List.Sublist (dedup_by comp l) l := by
  have := dedup_foldl_sublist comp l []
  simpa [dedup_by] using this

lemma dedup_foldl_pairwise {α : Type} (comp : α → α → Bool) :
    ∀ (l acc : List (GARecord α)),
      acc.Pairwise (fun a b => comp a.atoms b.atoms = false) →
      (l.foldl (dedup_step comp) acc).Pairwise
        (fun a b => comp a.atoms b.atoms = false) := by
  intro l
  induction l with
  | nil => intro acc h; exact h
  | cons x xs ih =>
      intro acc hacc
      simp only [List.foldl_cons]
      refine ih _ ?_
      unfold dedup_step
      by_cases h : acc.any (fun y => comp y.atoms x.atoms)
      · rw [if_pos h]
        exact hacc
      · rw [if_neg h]
        rw [List.pairwise_append]
        refine ⟨hacc, List.pairwise_singleton _ x, ?_⟩
        intro a ha b hb
        simp only [List.mem_singleton] at hb
        have hall : ∀ y ∈ acc, ¬ comp y.atoms x.atoms = true := by
          simpa [List.any_eq_true] using h
        rw [hb]
        simpa using hall a ha

lemma dedup_by_pairwise {α : Type} (comp : α → α → Bool) (l : List (GARecord α)) :
    (dedup_by comp l).Pairwise (fun a b => comp a.atoms b.atoms = false) :=
  dedup_foldl_pairwise comp l [] (List.Pairwise.nil)

lemma pick_mem {β : Type} :
    ∀ (l : List β) (n : Nat) (d : β), pick d l n = d ∨ pick d l n ∈ l := by
  intro l
  induction l with
  | nil =>
      intro n d
      left
      rfl
  | cons x xs ih =>
      intro n d
      cases n with
      | zero =>
          right
          exact List.mem_cons_self x xs
      | succ n =>
          rcases ih n d with h | h
          · left
            exact h
          · right
            exact List.mem_cons_of_mem x h

lemma get_two_candidates_mem {α : Type} (pop : List (GARecord α)) (i j : Nat)
    (pr : GARecord α × GARecord α)
    (h : get_two_candidates pop i j = some pr) : pr.1 ∈ pop ∧ pr.2 ∈ pop := by
  cases pop with
  | nil => exact absurd h (by simp [get_two_candidates])
  | cons x xs =>
      rw [get_two_candidates] at h
      have hpr := (Option.some.injEq _ _).mp h
      constructor
      · rw [← hpr]
        rcases pick_mem (x :: xs) (i % (xs.length + 1)) x with h1 | h1
        · rw [h1]
          exact List.mem_cons_self x xs
        · exact h1
      · rw [← hpr]
        rcases pick_mem (x :: xs) (j % (xs.length + 1)) x with h1 | h1
        · rw [h1]
          exact List.mem_cons_self x xs
        · exact h1

lemma get_two_candidates_isSome {α : Type} (pop : List (GARecord α)) (i j : Nat)
    (h : pop ≠ []) : (get_two_candidates pop i j).isSome = true := by
  cases pop with
  | nil => exact absurd rfl h
  | cons x xs => rfl

lemma pop_update_sublist {α : Type} (comp : α → α → Bool) (psize : Nat)
    (s : GAStore α) :
    List.Sublist (pop_update comp psize s)
      (sort_by_score (get_all_relaxed_candidates s)) :=
  List.Sublist.trans (List.take_sublist _ _) (dedup_by_sublist comp _)

lemma pop_update_length_le {α : Type} (comp : α → α → Bool) (psize : Nat)
    (s : GAStore α) : (pop_update comp psize s).length ≤ psize :=
  List.length_take_le _ _

lemma pop_update_mem {α : Type} (comp : α → α → Bool) (psize : Nat)
    (s : GAStore α) (r : GARecord α) (h : r ∈ pop_update comp psize s) :
    r.relaxed = true ∧ r ∈ s.recs := by
  have h1 : r ∈ sort_by_score (get_all_relaxed_candidates s) :=
    (pop_update_sublist comp psize s).subset h
  have h2 : r ∈ get_all_relaxed_candidates s := (mem_sort_by_score r _).mp h1
  have h3 := List.mem_filter.mp h2
  exact ⟨by simpa using h3.2, h3.1⟩

lemma pop_update_sorted {α : Type} (comp : α → α → Bool) (psize : Nat)
    (s : GAStore α) : List.Sorted score_ge (pop_update comp psize s) :=
  List.Pairwise.sublist (pop_update_sublist comp psize s)
    (sorted_sort_by_score _)

lemma pop_update_pairwise {α : Type} (comp : α → α → Bool) (psize : Nat)
    (s : GAStore α) :
    (pop_update comp psize s).Pairwise (fun a b => comp a.atoms b.atoms = false) :=
  List.Pairwise.sublist (List.take_sublist _ _) (dedup_by_pairwise comp _)

lemma uns_relax_one {α : Type} (ev : α → α × ℚ) (s : GAStore α)
    (h : unrelaxed_no_score s) : unrelaxed_no_score (relax_one ev s) := by
  unfold relax_one
  cases hg : get_an_unrelaxed_candidate s with
  | none => exact h
  | some r => exact unrelaxed_no_score_add_relaxed s r.gaid _ _ h

lemma uns_relax_steps {α : Type} (ev : α → α × ℚ) :
    ∀ (n : Nat) (s : GAStore α), unrelaxed_no_score s →
      unrelaxed_no_score (relax_steps ev n s) := by
  intro n
  induction n with
  | zero => intro s hs; exact hs
  | succ n ih =>
      intro s hs
      rw [relax_steps]
      by_cases h : 0 < get_number_of_unrelaxed_candidates s
      · rw [if_pos h]
        exact ih _ (uns_relax_one ev s hs)
      · rw [if_neg h]
        exact hs

lemma uns_relax_all {α : Type} (ev : α → α × ℚ) (s : GAStore α)
    (h : unrelaxed_no_score s) : unrelaxed_no_score (relax_all ev s) :=
  uns_relax_steps ev _ s h

lemma uns_pool_accept {α : Type} (g : PoolGA α) (st : PoolState α)
    (ch : PoolChoice α) (a3 : α) (h : unrelaxed_no_score st.store) :
    unrelaxed_no_score (pool_accept g st ch a3).store := by
  unfold pool_accept
  cases hm : ch.do_mut with
  | false =>
      cases hmu : ch.mutate a3 with
      | none =>
          exact unrelaxed_no_score_add_relaxed _ _ _ _
            (unrelaxed_no_score_add_unrelaxed _ _ _ h)
      | some a3m =>
          exact unrelaxed_no_score_add_relaxed _ _ _ _
            (unrelaxed_no_score_add_unrelaxed _ _ _ h)
  | true =>
      cases hmu : ch.mutate a3 with
      | none =>
          exact unrelaxed_no_score_add_relaxed _ _ _ _
            (unrelaxed_no_score_add_unrelaxed _ _ _ h)
      | some a3m =>
          exact unrelaxed_no_score_add_relaxed _ _ _ _
            (unrelaxed_no_score_add_step _ _ _
              (unrelaxed_no_score_add_unrelaxed _ _ _ h))

lemma uns_pool_iter {α : Type} (g : PoolGA α) (st : PoolState α)
    (ch : PoolChoice α) (h : unrelaxed_no_score st.store) :
    unrelaxed_no_score (pool_iter g st ch).store := by
  unfold pool_iter
  cases hg : get_two_candidates st.pop ch.i1 ch.i2 with
  | none => exact h
  | some p =>
      show unrelaxed_no_score (pool_pair g st ch (ch.pairing p.1.atoms p.2.atoms)).store
      cases hp : ch.pairing p.1.atoms p.2.atoms with
      | none => exact h
      | some a3 => exact uns_pool_accept g st ch a3 h

lemma uns_pool_run {α : Type} (g : PoolGA α) :
    ∀ (chs : List (PoolChoice α)) (st : PoolState α),
      unrelaxed_no_score st.store → unrelaxed_no_score (pool_run g chs st).store := by
  intro chs
  induction chs with
  | nil => intro st h; exact h
  | cons ch rest ih =>
      intro st h
      exact ih _ (uns_pool_iter g st ch h)

lemma uns_alloy_iter {α : Type} (ev : α → α × ℚ) (st : PoolState α)
    (c : AlloyChoice α) (h : unrelaxed_no_score st.store) :
    unrelaxed_no_score (alloy_iter ev st c).store := by
  unfold alloy_iter
  cases hg : get_two_candidates st.pop c.i1 c.i2 with
  | none => exact h
  | some p =>
      exact unrelaxed_no_score_add_relaxed _ _ _ _
        (unrelaxed_no_score_add_unrelaxed _ _ _ h)

lemma uns_alloy_generation {α : Type} (ev : α → α × ℚ) (comp : α → α → Bool)
    (psize : Nat) (st : PoolState α) (cs : List (AlloyChoice α))
    (h : unrelaxed_no_score st.store) :
    unrelaxed_no_score (alloy_generation ev comp psize st cs).store := by
  unfold alloy_generation
  have H : ∀ (cs : List (AlloyChoice α)) (st : PoolState α),
      unrelaxed_no_score st.store →
      unrelaxed_no_score (cs.foldl (alloy_iter ev) st).store := by
    intro cs
    induction cs with
    | nil => intro st h; exact h
    | cons c rest ih =>
        intro st h
        exact ih _ (uns_alloy_iter ev st c h)
  exact H cs st h

/-- Raw-score correctness invariant: every relaxed record's stored raw
score is minus the evaluator's energy of its stored (relaxed) structure. -/
def score_ok {α : Type} (en : α → ℚ) (s : GAStore α) : Prop :=
  ∀ r ∈ s.recs, r.relaxed = true → r.raw_score = some (-(en r.atoms))

/-- The evaluation collaborator of the pool GA script: BFGS-relax the
structure with the EMT calculator, then score it by minus its potential
energy (part_000: `raw_score = -a.get_potential_energy()` after
`BFGS(a).run(...)`). -/
def bfgs_ev {α : Type} (bfgs : α → α) (en : α → ℚ) : α → α × ℚ :=
  fun a => (bfgs a, -(en (bfgs a)))

lemma score_ok_add_unrelaxed {α : Type} (en : α → ℚ) (s : GAStore α) (a : α)
    (d : Option Nat) (h : score_ok en s) :
    score_ok en (add_unrelaxed_candidate s a d) := by
  intro r hr hrel
  rcases List.mem_append.mp hr with h1 | h2
  · exact h r h1 hrel
  · simp only [List.mem_singleton] at h2
    subst h2
    simp at hrel

lemma score_ok_add_step {α : Type} (en : α → ℚ) (s : GAStore α) (a : α)
    (d : Option Nat) (h : score_ok en s) :
    score_ok en (add_unrelaxed_step s a d) := by
  intro r hr hrel
  rcases List.mem_append.mp hr with h1 | h2
  · exact h r h1 hrel
  · simp only [List.mem_singleton] at h2
    subst h2
    simp at hrel

lemma score_ok_add_relaxed {α : Type} (en : α → ℚ) (s : GAStore α) (id : Nat)
    (a : α) (h : score_ok en s) :
    score_ok en (add_relaxed_step s id a (-(en a))) := by
  intro r hr hrel
  rcases List.mem_map.mp hr with ⟨x, hx, hfx⟩
  by_cases hid : x.gaid = id
  · rw [if_pos hid] at hfx
    subst hfx
    rfl
  · rw [if_neg hid] at hfx
    subst hfx
    exact h x hx hrel

lemma score_ok_relax_one {α : Type} (bfgs : α → α) (en : α → ℚ) (s : GAStore α)
    (h : score_ok en s) : score_ok en (relax_one (bfgs_ev bfgs en) s) := by
  unfold relax_one
  cases hg : get_an_unrelaxed_candidate s with
  | none => exact h
  | some r => exact score_ok_add_relaxed en s r.gaid (bfgs r.atoms) h

lemma score_ok_relax_steps {α : Type} (bfgs : α → α) (en : α → ℚ) :
    ∀ (n : Nat) (s : GAStore α), score_ok en s →
      score_ok en (relax_steps (bfgs_ev bfgs en) n s) := by
  intro n
  induction n with
  | zero => intro s hs; exact hs
  | succ n ih =>
      intro s hs
      rw [relax_steps]
      by_cases h : 0 < get_number_of_unrelaxed_candidates s
      · rw [if_pos h]
        exact ih _ (score_ok_relax_one bfgs en s hs)
      · rw [if_neg h]
        exact hs

lemma score_ok_relax_all {α : Type} (bfgs : α → α) (en : α → ℚ) (s : GAStore α)
    (h : score_ok en s) : score_ok en (relax_all (bfgs_ev bfgs en) s) :=
  score_ok_relax_steps bfgs en _ s h

lemma score_ok_pool_accept {α : Type} (g : PoolGA α) (bfgs : α → α) (en : α → ℚ)
    (hev : g.ev = bfgs_ev bfgs en) (st : PoolState α) (ch : PoolChoice α) (a3 : α)
    (h : score_ok en st.store) : score_ok en (pool_accept g st ch a3).store := by
  unfold pool_accept
  rw [hev]
  cases hm : ch.do_mut with
  | false =>
      exact score_ok_add_relaxed en _ _ _ (score_ok_add_unrelaxed en _ _ _ h)
  | true =>
      cases hmu : ch.mutate a3 with
      | none =>
          exact score_ok_add_relaxed en _ _ _ (score_ok_add_unrelaxed en _ _ _ h)
      | some a3m =>
          exact score_ok_add_relaxed en _ _ _
            (score_ok_add_step en _ _ _ (score_ok_add_unrelaxed en _ _ _ h))

lemma score_ok_pool_iter {α : Type} (g : PoolGA α) (bfgs : α → α) (en : α → ℚ)
    (hev : g.ev = bfgs_ev bfgs en) (st : PoolState α) (ch : PoolChoice α)
    (h : score_ok en st.store) : score_ok en (pool_iter g st ch).store := by
  unfold pool_iter
  cases hg : get_two_candidates st.pop ch.i1 ch.i2 with
  | none => exact h
  | some p =>
      show score_ok en (pool_pair g st ch (ch.pairing p.1.atoms p.2.atoms)).store
      cases hp : ch.pairing p.1.atoms p.2.atoms with
      | none => exact h
      | some a3 => exact score_ok_pool_accept g bfgs en hev st ch a3 h

lemma score_ok_pool_run {α : Type} (g : PoolGA α) (bfgs : α → α) (en : α → ℚ)
    (hev : g.ev = bfgs_ev bfgs en) :
    ∀ (chs : List (PoolChoice α)) (st : PoolState α),
      score_ok en st.store → score_ok en (pool_run g chs st).store := by
  intro chs
  induction chs with
  | nil => intro st h; exact h
  | cons ch rest ih =>
      intro st h
      exact ih _ (score_ok_pool_iter g bfgs en hev st ch h)

lemma add_relaxed_new_mem {α : Type} (s : GAStore α) (a anew : α) (d : Option Nat)
    (sc : ℚ) :
    (⟨s.next_id, anew, true, some sc, d⟩ : GARecord α) ∈
      (add_relaxed_step (add_unrelaxed_candidate s a d) s.next_id anew sc).recs := by
  have hmem : (⟨s.next_id, a, false, none, d⟩ : GARecord α) ∈
      (add_unrelaxed_candidate s a d).recs := by
    unfold add_unrelaxed_candidate
    simp
  have hmap := List.mem_map_of_mem
    (fun r : GARecord α =>
      if r.gaid = s.next_id then
        { r with atoms := anew, relaxed := true, raw_score := some sc }
      else r) hmem
  simpa [add_relaxed_step] using hmap

lemma pool_iter_sample_none {α : Type} (g : PoolGA α) (st : PoolState α)
    (ch : PoolChoice α) (hg : get_two_candidates st.pop ch.i1 ch.i2 = none) :
    pool_iter g st ch = st := by
  unfold pool_iter
  rw [hg]
  rfl

lemma pool_iter_pairing_none {α : Type} (g : PoolGA α) (st : PoolState α)
    (ch : PoolChoice α) (p : GARecord α × GARecord α)
    (hg : get_two_candidates st.pop ch.i1 ch.i2 = some p)
    (hp : ch.pairing p.1.atoms p.2.atoms = none) :
    pool_iter g st ch = st := by
  unfold pool_iter
  rw [hg]
  show pool_pair g st ch (ch.pairing p.1.atoms p.2.atoms) = st
  rw [hp]
  rfl

lemma pool_iter_pairing_some {α : Type} (g : PoolGA α) (st : PoolState α)
    (ch : PoolChoice α) (p : GARecord α × GARecord α) (a3 : α)
    (hg : get_two_candidates st.pop ch.i1 ch.i2 = some p)
    (hp : ch.pairing p.1.atoms p.2.atoms = some a3) :
    pool_iter g st ch = pool_accept g st ch a3 := by
  unfold pool_iter
  rw [hg]
  show pool_pair g st ch (ch.pairing p.1.atoms p.2.atoms) = _
  rw [hp]
  rfl

lemma pool_accept_mut_failure {α : Type} (g : PoolGA α) (st : PoolState α)
    (ch : PoolChoice α) (a3 : α) (hmu : ch.mutate a3 = none) :
    pool_accept g st ch a3 = pool_accept g st { ch with do_mut := false } a3 := by
  unfold pool_accept
  cases hm : ch.do_mut with
  | false => rfl
  | true =>
      rw [hmu]
      rfl

/-- The seven metals supported by the EMT calculator (part_001 and
part_005): Al, Au, Cu, Ag, Pd, Pt, Ni. -/
inductive Metal : Type
  | Al
  | Au
  | Cu
  | Ag
  | Pd
  | Pt
  | Ni
deriving DecidableEq, Repr

/-- One row of the reference database refs.db (part_001): for each metal,
the fitted lattice constant and the energy per atom of its relaxed FCC
phase. -/
structure RefRow where
  latticeconstant : ℚ
  energy_per_atom : ℚ
deriving DecidableEq, Repr

/-- The key-value pairs written by the alloy relax function (part_001):
heat of formation, raw score, fitted lattice constant, and the candidate's
atoms string. -/
structure RelaxResult where
  hof : ℚ
  raw_score : ℚ
  latticeconstant : ℚ
  atoms_string : List Metal
deriving DecidableEq, Repr

/-- The nine scale factors of `np.linspace(1 - eps, 1 + eps, 9)` with
`eps = 0.05` (part_001): 0.95, 0.9625, ..., 1.05 as exact rationals. -/
def linspace9 : List ℚ :=
  [19/20, 77/80, 39/40, 79/80, 1, 81/80, 41/40, 83/80, 21/20]

/-- The alloy relax function, embedded from part_001.  The candidate is its
list of chemical symbols.  The function averages the reference lattice
constants weighted by symbol counts (summing over the distinct symbols, as
the source loops over `set(atoms_string)`), sums the reference energies the
same way into `ei`, probes the EMT energy at nine scaled volumes, fits an
equation of state to obtain the minimising volume `v1` and energy `ef`,
and records `hof = (ef - ei) / len(atoms)`, `raw_score = -hof` and the
fitted lattice constant `v1 ** (1/3)`.  The EMT calculator `emt` (energy
of the symbol arrangement at a given cell volume), the least-squares fit
`eosFit` (volumes and energies to minimising volume and energy) and the
cube root `cbrt` are external collaborators, kept abstract. -/
def alloy_relax (emt : List Metal → ℚ → ℚ) (eosFit : List ℚ → List ℚ → ℚ × ℚ)
    (cbrt : ℚ → ℚ) (refs : Metal → RefRow) (atoms_string : List Metal) :
    RelaxResult :=
  let n : ℚ := atoms_string.length
  let a := ((atoms_string.dedup).map
    (fun m => (atoms_string.count m : ℚ) * (refs m).latticeconstant)).sum / n
  let ei := ((atoms_string.dedup).map
    (fun m => (atoms_string.count m : ℚ) * (refs m).energy_per_atom)).sum
  let volumes := linspace9.map (fun t => (a * t) ^ 3)
  let energies := volumes.map (fun v => emt atoms_string v)
  let fit := eosFit volumes energies
  let hof := (fit.2 - ei) / n
  { hof := hof
    raw_score := -hof
    latticeconstant := cbrt fit.1
    atoms_string := atoms_string }

lemma sum_single_count {f : Metal → ℚ} (x : Metal) :
    ∀ d : List Metal, d.Nodup → x ∈ d →
      (d.map (fun m => ((if x = m then 1 else 0 : Nat) : ℚ) * f m)).sum = f x := by
  intro d
  induction d with
  | nil => intro _ h; exact absurd h (List.not_mem_nil x)
  | cons y ys ih =>
      intro hnd hmem
      rcases List.nodup_cons.mp hnd with ⟨hy, hys⟩
      simp only [List.map_cons, List.sum_cons]
      rcases List.mem_cons.mp hmem with hx | hx
      · subst hx
        have hz : (ys.map (fun m => ((if x = m then 1 else 0 : Nat) : ℚ) * f m)).sum = 0 := by
          apply List.sum_eq_zero
          intro q hq
          rcases List.mem_map.mp hq with ⟨m, hm, hqm⟩
          have hxm : x ≠ m := fun hv => hy (hv ▸ hm)
          rw [← hqm, if_neg hxm]
          simp
        rw [hz, if_pos rfl]
        simp
      · have hyx : x ≠ y := by
          intro hv
          rw [hv] at hx
          exact hy hx
        rw [if_neg hyx]
        rw [ih hys hx]
        simp

lemma count_cons_cast (x m : Metal) (xs : List Metal) :
    ((x :: xs).count m : ℚ) = (xs.count m : ℚ) +
      ((if x = m then 1 else 0 : Nat) : ℚ) := by
  rcases eq_or_ne x m with h | h
  · subst h
    rw [List.count_cons_self]
    push_cast
    simp
  · rw [List.count_cons_of_ne (Ne.symm h)]
    rw [if_neg h]
    simp

lemma sum_split_count (f : Metal → ℚ) (x : Metal) (xs : List Metal) :
    ∀ d : List Metal,
      (d.map (fun m => ((x :: xs).count m : ℚ) * f m)).sum =
        (d.map (fun m => (xs.count m : ℚ) * f m)).sum +
          (d.map (fun m => ((if x = m then 1 else 0 : Nat) : ℚ) * f m)).sum := by
  intro d
  induction d with
  | nil => simp
  | cons y ys ihd =>
      simp only [List.map_cons, List.sum_cons]
      rw [ihd, count_cons_cast x y xs]
      ring

lemma sum_dedup_count (f : Metal → ℚ) :
    ∀ l : List Metal,
      ((l.dedup).map (fun m => (l.count m : ℚ) * f m)).sum = (l.map f).sum := by
  intro l
  have H : ∀ (l d : List Metal), d.Nodup → (∀ m ∈ l, m ∈ d) →
      (d.map (fun m => (l.count m : ℚ) * f m)).sum = (l.map f).sum := by
    intro l
    induction l with
    | nil =>
        intro d _ _
        simp
    | cons x xs ih =>
        intro d hnd hsub
        have hx : x ∈ d := hsub x (List.mem_cons_self x xs)
        have hxs : ∀ m ∈ xs, m ∈ d := fun m hm => hsub m (List.mem_cons_of_mem x hm)
        rw [sum_split_count f x xs d, ih d hnd hxs, sum_single_count x d hnd hx]
        simp only [List.map_cons, List.sum_cons]
        ring
  exact H l l.dedup l.nodup_dedup (fun m hm => List.mem_dedup.mpr hm)

/-- Adsorbates used in the surface adsorption study (part_005): C, N, O,
plus the clean-surface marker used by the reference-energy script. -/
inductive Adsorbate : Type
  | C
  | N
  | O
  | clean
deriving DecidableEq, Repr

/-- The descriptive key combination of one adsorption calculation
(part_005): number of layers, surface metal, adsorbate. -/
structure AdsKeys where
  layers : Nat
  surf : Metal
  ads : Adsorbate
deriving DecidableEq, Repr

/-- One row of the ads.db database: identifier, number of atoms of the
stored structure (0 for the empty placeholder row written by a
reservation), and the optional key-value keys. -/
structure AdsRow where
  rid : Nat
  natoms : Nat
  keys : Option AdsKeys
deriving DecidableEq, Repr

/-- The ads.db database file: rows plus the next fresh row identifier. -/
structure AdsDB where
  next_id : Nat
  rows : List AdsRow
deriving DecidableEq, Repr

/-- Existence of a row carrying the given key combination. -/
def has_row (db : AdsDB) (k : AdsKeys) : Bool :=
  db.rows.any (fun r => r.keys == some k)

/-- Modelled from the spec: the reservation operation -- "a process may
reserve a (not-yet-existing) slot keyed by descriptive parameters".  Per
the part_005 narrative: if a row with the keys exists, no id is returned
(the calculation will be skipped); otherwise an empty placeholder row with
those keys is written and its id returned. -/
def reserve (db : AdsDB) (k : AdsKeys) : Option Nat × AdsDB :=
  if has_row db k then (none, db)
  else (some db.next_id,
        { next_id := db.next_id + 1
          rows := db.rows ++ [⟨db.next_id, 0, some k⟩] })

/-- Writing a real result row with the given keys under a fresh id
(`db2.write(atoms, layers=n, surf=symb, ads=ads)`). -/
def write_new (db : AdsDB) (n : Nat) (k : AdsKeys) : AdsDB :=
  { next_id := db.next_id + 1
    rows := db.rows ++ [⟨db.next_id, n, some k⟩] }

/-- Overwriting the row of a given id in place
(`db2.write(atoms, id=id, ...)` in the clean-slab loop). -/
def write_at (db : AdsDB) (id n : Nat) (k : AdsKeys) : AdsDB :=
  { db with
    rows := db.rows.map (fun r => if r.rid = id then ⟨id, n, some k⟩ else r) }

/-- Deleting the row of a given id (`del db2[id]`). -/
def del_row (db : AdsDB) (id : Nat) : AdsDB :=
  { db with rows := db.rows.filter (fun r => !(r.rid == id)) }

/-- Database well-formedness: every row id is below the next fresh id. -/
def wf_ads (db : AdsDB) : Prop :=
  ∀ r ∈ db.rows, r.rid < db.next_id

/-- One inner-loop body of the restartable adsorption script (part_005):
reserve the keys; when the reservation fails the calculation is skipped;
otherwise run the calculation (`f k` atoms result; counted as one
evaluation call), write the real row, and delete the placeholder. -/
def ads_step (f : AdsKeys → Nat) (db : AdsDB) (k : AdsKeys) : AdsDB × Nat :=
  match (reserve db k).1 with
  | none => ((reserve db k).2, 0)
  | some id => (del_row (write_new (reserve db k).2 (f k) k) id, 1)

/-- One inner-loop body of the clean-slab reference script (part_005):
like `ads_step` but the real result overwrites the placeholder row in
place via its reserved id. -/
def clean_step (f : AdsKeys → Nat) (db : AdsDB) (k : AdsKeys) : AdsDB × Nat :=
  match (reserve db k).1 with
  | none => ((reserve db k).2, 0)
  | some id => (write_at (reserve db k).2 id (f k) k, 1)

/-- The whole restartable adsorption script: the nested loops of part_005
enumerate key combinations; the script runs `ads_step` on each in turn,
returning the final database and the total number of evaluation calls. -/
def ads_script (f : AdsKeys → Nat) : AdsDB → List AdsKeys → AdsDB × Nat
  | db, [] => (db, 0)
  | db, k :: ks =>
      ((ads_script f (ads_step f db k).1 ks).1,
       (ads_step f db k).2 + (ads_script f (ads_step f db k).1 ks).2)

/-- Rows carrying the given key combination. -/
def rows_with (db : AdsDB) (k : AdsKeys) : List AdsRow :=
  db.rows.filter (fun r => r.keys == some k)

lemma reserve_of_has (db : AdsDB) (k : AdsKeys) (h : has_row db k = true) :
    reserve db k = (none, db) := by
  unfold reserve
  rw [if_pos h]

lemma reserve_of_not (db : AdsDB) (k : AdsKeys) (h : has_row db k = false) :
    reserve db k = (some db.next_id,
      { next_id := db.next_id + 1
        rows := db.rows ++ [⟨db.next_id, 0, some k⟩] }) := by
  unfold reserve
  rw [if_neg (by simp [h])]

lemma ads_step_skip (f : AdsKeys → Nat) (db : AdsDB) (k : AdsKeys)
    (h : has_row db k = true) : ads_step f db k = (db, 0) := by
  unfold ads_step
  rw [reserve_of_has db k h]

lemma clean_step_skip (f : AdsKeys → Nat) (db : AdsDB) (k : AdsKeys)
    (h : has_row db k = true) : clean_step f db k = (db, 0) := by
  unfold clean_step
  rw [reserve_of_has db k h]

lemma filter_ne_id_of_wf (db : AdsDB) (hwf : wf_ads db) :
    db.rows.filter (fun r => !(r.rid == db.next_id)) = db.rows := by
  rw [List.filter_eq_self]
  intro r hr
  have := hwf r hr
  simp only [Bool.not_eq_true']
  rw [beq_eq_false_iff_ne]
  omega

lemma ads_step_compute (f : AdsKeys → Nat) (db : AdsDB) (k : AdsKeys)
    (hwf : wf_ads db) (h : has_row db k = false) :
    ads_step f db k =
      ({ next_id := db.next_id + 2
         rows := db.rows ++ [⟨db.next_id + 1, f k, some k⟩] }, 1) := by
  unfold ads_step
  rw [reserve_of_not db k h]
  simp only [write_new, del_row]
  rw [List.filter_append, List.filter_append]
  rw [filter_ne_id_of_wf db hwf]
  simp

lemma clean_step_compute (f : AdsKeys → Nat) (db : AdsDB) (k : AdsKeys)
    (hwf : wf_ads db) (h : has_row db k = false) :
    clean_step f db k =
      ({ next_id := db.next_id + 1
         rows := db.rows ++ [⟨db.next_id, f k, some k⟩] }, 1) := by
  unfold clean_step
  rw [reserve_of_not db k h]
  simp only [write_at]
  rw [List.map_append]
  have h1 : db.rows.map
      (fun r => if r.rid = db.next_id then (⟨db.next_id, f k, some k⟩ : AdsRow)
                else r) = db.rows := by
    apply List.map_congr_left ?_ |>.trans (List.map_id db.rows)
    intro r hr
    have := hwf r hr
    rw [if_neg (by omega)]
    rfl
  rw [h1]
  simp

lemma wf_ads_step (f : AdsKeys → Nat) (db : AdsDB) (k : AdsKeys)
    (hwf : wf_ads db) : wf_ads (ads_step f db k).1 := by
  by_cases h : has_row db k = true
  · rw [ads_step_skip f db k h]
    exact hwf
  · have h2 : has_row db k = false := by simpa using h
    rw [ads_step_compute f db k hwf h2]
    intro r hr
    show r.rid < db.next_id + 2
    rcases List.mem_append.mp hr with h1 | h1
    · have := hwf r h1
      omega
    · simp only [List.mem_singleton] at h1
      subst h1
      show db.next_id + 1 < db.next_id + 2
      omega

lemma has_row_ads_step (f : AdsKeys → Nat) (db : AdsDB) (k k2 : AdsKeys)
    (hwf : wf_ads db) (h : has_row db k2 = true) :
    has_row (ads_step f db k).1 k2 = true := by
  by_cases hk : has_row db k = true
  · rw [ads_step_skip f db k hk]
    exact h
  · have hk2 : has_row db k = false := by simpa using hk
    rw [ads_step_compute f db k hwf hk2]
    show (db.rows ++ [(⟨db.next_id + 1, f k, some k⟩ : AdsRow)]).any
      (fun r => r.keys == some k2) = true
    rw [List.any_append]
    unfold has_row at h
    simp [h]

lemma ads_step_gives_row (f : AdsKeys → Nat) (db : AdsDB) (k : AdsKeys)
    (hwf : wf_ads db) : has_row (ads_step f db k).1 k = true := by
  by_cases hk : has_row db k = true
  · rw [ads_step_skip f db k hk]
    exact hk
  · have hk2 : has_row db k = false := by simpa using hk
    rw [ads_step_compute f db k hwf hk2]
    show (db.rows ++ [(⟨db.next_id + 1, f k, some k⟩ : AdsRow)]).any
      (fun r => r.keys == some k) = true
    rw [List.any_append]
    simp

lemma ads_script_skip_all (f : AdsKeys → Nat) :
    ∀ (ks : List AdsKeys) (db : AdsDB), (∀ k ∈ ks, has_row db k = true) →
      ads_script f db ks = (db, 0) := by
  intro ks
  induction ks with
  | nil => intro db _; rfl
  | cons k ks ih =>
      intro db h
      have hstep := ads_step_skip f db k (h k (List.mem_cons_self k ks))
      show ((ads_script f (ads_step f db k).1 ks).1,
            (ads_step f db k).2 + (ads_script f (ads_step f db k).1 ks).2) = (db, 0)
      rw [hstep]
      show ((ads_script f db ks).1, 0 + (ads_script f db ks).2) = (db, 0)
      rw [ih db (fun k2 hk2 => h k2 (List.mem_cons_of_mem k hk2))]
      simp

lemma wf_ads_script (f : AdsKeys → Nat) :
    ∀ (ks : List AdsKeys) (db : AdsDB), wf_ads db →
      wf_ads (ads_script f db ks).1 := by
  intro ks
  induction ks with
  | nil => intro db h; exact h
  | cons k ks ih =>
      intro db h
      show wf_ads (ads_script f (ads_step f db k).1 ks).1
      exact ih _ (wf_ads_step f db k h)

lemma has_row_ads_script (f : AdsKeys → Nat) (k2 : AdsKeys) :
    ∀ (ks : List AdsKeys) (db : AdsDB), wf_ads db → has_row db k2 = true →
      has_row (ads_script f db ks).1 k2 = true := by
  intro ks
  induction ks with
  | nil => intro db _ h; exact h
  | cons k ks ih =>
      intro db hwf h
      show has_row (ads_script f (ads_step f db k).1 ks).1 k2 = true
      exact ih _ (wf_ads_step f db k hwf) (has_row_ads_step f db k k2 hwf h)

lemma ads_script_covers (f : AdsKeys → Nat) :
    ∀ (ks : List AdsKeys) (db : AdsDB), wf_ads db → ∀ k2 ∈ ks,
      has_row (ads_script f db ks).1 k2 = true := by
  intro ks
  induction ks with
  | nil =>
      intro db _ k2 hk2
      exact absurd hk2 (List.not_mem_nil k2)
  | cons k ks ih =>
      intro db hwf k2 hk2
      show has_row (ads_script f (ads_step f db k).1 ks).1 k2 = true
      rcases List.mem_cons.mp hk2 with h | h
      · rw [h]
        exact has_row_ads_script f k ks _ (wf_ads_step f db k hwf)
          (ads_step_gives_row f db k hwf)
      · exact ih _ (wf_ads_step f db k hwf) k2 h

lemma rows_with_of_no (db : AdsDB) (k : AdsKeys) (h : has_row db k = false) :
    rows_with db k = [] := by
  unfold rows_with
  unfold has_row at h
  rw [List.filter_eq_nil_iff]
  rw [List.any_eq_false] at h
  exact h

instance {α : Type} [DecidableEq α] (s : GAStore α) :
    Decidable (unrelaxed_no_score s) := by
  unfold unrelaxed_no_score
  infer_instance

instance {α : Type} [DecidableEq α] (s : GAStore α) : Decidable (wf s) := by
  unfold wf
  infer_instance

instance {α : Type} [DecidableEq α] (en : α → ℚ) (s : GAStore α) :
    Decidable (score_ok en s) := by
  unfold score_ok
  infer_instance

instance (db : AdsDB) : Decidable (wf_ads db) := by
  unfold wf_ads
  infer_instance

lemma gaids_add_unrelaxed {α : Type} (s : GAStore α) (a : α) (d : Option Nat) :
    gaids (add_unrelaxed_candidate s a d) = gaids s ++ [s.next_id] := by
  unfold gaids add_unrelaxed_candidate
  rw [List.map_append]
  rfl

lemma gaids_add_unrelaxed_step {α : Type} (s : GAStore α) (a : α) (d : Option Nat) :
    gaids (add_unrelaxed_step s a d) = gaids s ++ [s.next_id] := by
  unfold gaids add_unrelaxed_step
  rw [List.map_append]
  rfl

lemma gaids_add_relaxed {α : Type} (s : GAStore α) (id : Nat) (a : α) (sc : ℚ) :
    gaids (add_relaxed_step s id a sc) = gaids s := by
  unfold gaids
  rw [add_relaxed_step_recs, List.map_map]
  apply List.map_congr_left
  intro r _
  show (mark_map id a sc r).gaid = r.gaid
  unfold mark_map
  by_cases h : r.gaid = id
  · rw [if_pos h]
  · rw [if_neg h]

lemma gaids_relax_one {α : Type} (ev : α → α × ℚ) (s : GAStore α) :
    gaids (relax_one ev s) = gaids s := by
  unfold relax_one
  cases hg : get_an_unrelaxed_candidate s with
  | none => rfl
  | some r => exact gaids_add_relaxed s r.gaid _ _

lemma gaids_relax_steps {α : Type} (ev : α → α × ℚ) :
    ∀ (n : Nat) (s : GAStore α), gaids (relax_steps ev n s) = gaids s := by
  intro n
  induction n with
  | zero => intro s; rfl
  | succ n ih =>
      intro s
      rw [relax_steps]
      by_cases h : 0 < get_number_of_unrelaxed_candidates s
      · rw [if_pos h, ih, gaids_relax_one]
      · rw [if_neg h]

lemma gaids_relax_all {α : Type} (ev : α → α × ℚ) (s : GAStore α) :
    gaids (relax_all ev s) = gaids s :=
  gaids_relax_steps ev _ s

lemma gaids_pool_accept_sub {α : Type} (g : PoolGA α) (st : PoolState α)
    (ch : PoolChoice α) (a3 : α) (x : Nat) (hx : x ∈ gaids st.store) :
    x ∈ gaids (pool_accept g st ch a3).store := by
  unfold pool_accept
  cases hm : ch.do_mut with
  | false =>
      show x ∈ gaids (add_relaxed_step (add_unrelaxed_candidate st.store a3 (some 0))
        st.store.next_id (g.ev a3).1 (g.ev a3).2)
      rw [gaids_add_relaxed, gaids_add_unrelaxed]
      exact List.mem_append_left _ hx
  | true =>
      cases hmu : ch.mutate a3 with
      | none =>
          show x ∈ gaids (add_relaxed_step (add_unrelaxed_candidate st.store a3 (some 0))
            st.store.next_id (g.ev a3).1 (g.ev a3).2)
          rw [gaids_add_relaxed, gaids_add_unrelaxed]
          exact List.mem_append_left _ hx
      | some a3m =>
          show x ∈ gaids (add_relaxed_step
            (add_unrelaxed_step (add_unrelaxed_candidate st.store a3 (some 0)) a3m (some 1))
            (add_unrelaxed_candidate st.store a3 (some 0)).next_id
            (g.ev a3m).1 (g.ev a3m).2)
          rw [gaids_add_relaxed, gaids_add_unrelaxed_step, gaids_add_unrelaxed]
          exact List.mem_append_left _ (List.mem_append_left _ hx)

lemma gaids_pool_iter_sub {α : Type} (g : PoolGA α) (st : PoolState α)
    (ch : PoolChoice α) (x : Nat) (hx : x ∈ gaids st.store) :
    x ∈ gaids (pool_iter g st ch).store := by
  cases hg : get_two_candidates st.pop ch.i1 ch.i2 with
  | none =>
      rw [pool_iter_sample_none g st ch hg]
      exact hx
  | some p =>
      cases hp : ch.pairing p.1.atoms p.2.atoms with
      | none =>
          rw [pool_iter_pairing_none g st ch p hg hp]
          exact hx
      | some a3 =>
          rw [pool_iter_pairing_some g st ch p a3 hg hp]
          exact gaids_pool_accept_sub g st ch a3 x hx

lemma gaids_pool_run_sub {α : Type} (g : PoolGA α) :
    ∀ (chs : List (PoolChoice α)) (st : PoolState α) (x : Nat),
      x ∈ gaids st.store → x ∈ gaids (pool_run g chs st).store := by
  intro chs
  induction chs with
  | nil => intro st x hx; exact hx
  | cons ch rest ih =>
      intro st x hx
      exact ih _ x (gaids_pool_iter_sub g st ch x hx)

lemma rows_mono_ads_step (f : AdsKeys → Nat) (db : AdsDB) (k : AdsKeys)
    (hwf : wf_ads db) (r : AdsRow) (hr : r ∈ db.rows) :
    r ∈ (ads_step f db k).1.rows := by
  by_cases h : has_row db k = true
  · rw [ads_step_skip f db k h]
    exact hr
  · rw [ads_step_compute f db k hwf (by simpa using h)]
    exact List.mem_append_left _ hr

lemma rows_mono_ads_script (f : AdsKeys → Nat) :
    ∀ (ks : List AdsKeys) (db : AdsDB), wf_ads db →
      ∀ r ∈ db.rows, r ∈ (ads_script f db ks).1.rows := by
  intro ks
  induction ks with
  | nil => intro db _ r hr; exact hr
  | cons k ks ih =>
      intro db hwf r hr
      show r ∈ (ads_script f (ads_step f db k).1 ks).1.rows
      exact ih _ (wf_ads_step f db k hwf) r (rows_mono_ads_step f db k hwf r hr)

lemma relax_one_found_mem {α : Type} (ev : α → α × ℚ) (s : GAStore α)
    (r : GARecord α) (h : get_an_unrelaxed_candidate s = some r) :
    (⟨r.gaid, (ev r.atoms).1, true, some ((ev r.atoms).2), r.origin⟩ : GARecord α) ∈
      (relax_one ev s).recs := by
  have hmem : r ∈ s.recs := List.mem_of_find?_eq_some h
  unfold relax_one
  rw [h]
  rw [add_relaxed_step_recs]
  have hmap := List.mem_map_of_mem (mark_map r.gaid (ev r.atoms).1 (ev r.atoms).2) hmem
  have heq : mark_map r.gaid (ev r.atoms).1 (ev r.atoms).2 r =
      ⟨r.gaid, (ev r.atoms).1, true, some ((ev r.atoms).2), r.origin⟩ := by
    unfold mark_map
    rw [if_pos rfl]
  rw [heq] at hmap
  exact hmap

lemma countP_map_mark_exact {α : Type} (a : α) (sc : ℚ) (r : GARecord α) :
    ∀ l : List (GARecord α), (l.map (fun x => x.gaid)).Nodup → r ∈ l →
      r.relaxed = false →
      (l.map (mark_map r.gaid a sc)).countP (fun x => !x.relaxed) + 1 =
        l.countP (fun x => !x.relaxed) := by
  intro l
  induction l with
  | nil => intro _ h; exact absurd h (List.not_mem_nil r)
  | cons x xs ih =>
      intro hnd hmem hrel
      rw [List.map_cons, List.nodup_cons] at hnd
      rcases hnd with ⟨hx, hxs⟩
      simp only [List.map_cons, List.countP_cons]
      rcases List.mem_cons.mp hmem with h1 | h1
      · subst h1
        have hfix : xs.map (mark_map r.gaid a sc) = xs := by
          apply map_eq_self_of_fix
          intro y hy
          unfold mark_map
          rw [if_neg ?_]
          intro hv
          exact hx (hv ▸ List.mem_map_of_mem (fun q => q.gaid) hy)
        rw [hfix]
        have e1 : (if (!(mark_map r.gaid a sc r).relaxed) = true then 1 else 0) = 0 := by
          unfold mark_map
          simp
        have e2 : (if (!r.relaxed) = true then 1 else 0) = 1 := by simp [hrel]
        rw [e1, e2]
      · have hne : x.gaid ≠ r.gaid := by
          intro hv
          exact hx (hv ▸ List.mem_map_of_mem (fun q => q.gaid) h1)
        have hxfix : mark_map r.gaid a sc x = x := by
          unfold mark_map
          rw [if_neg hne]
        rw [hxfix]
        have := ih hxs h1 hrel
        omega

lemma count_relax_one_exact {α : Type} (ev : α → α × ℚ) (s : GAStore α)
    (hwf : wf s) (h : 0 < get_number_of_unrelaxed_candidates s) :
    get_number_of_unrelaxed_candidates (relax_one ev s) + 1 =
      get_number_of_unrelaxed_candidates s := by
  rcases count_pos_find s h with ⟨r, hr⟩
  rcases find_unrelaxed_props s r hr with ⟨hmem, hrel⟩
  unfold relax_one
  rw [hr]
  show get_number_of_unrelaxed_candidates
      (add_relaxed_step s r.gaid (ev r.atoms).1 (ev r.atoms).2) + 1 = _
  unfold get_number_of_unrelaxed_candidates
  rw [add_relaxed_step_recs, ← List.countP_eq_length_filter, ← List.countP_eq_length_filter]
  exact countP_map_mark_exact (ev r.atoms).1 (ev r.atoms).2 r s.recs hwf.1 hmem hrel

lemma alloy_relax_formulas (emt : List Metal → ℚ → ℚ)
    (eosFit : List ℚ → List ℚ → ℚ × ℚ) (cbrt : ℚ → ℚ) (refs : Metal → RefRow)
    (syms : List Metal) :
    (alloy_relax emt eosFit cbrt refs syms).hof =
      ((eosFit
          ((linspace9.map (fun t =>
            (((syms.map (fun m => (refs m).latticeconstant)).sum / (syms.length : ℚ)) * t) ^ 3)))
          ((linspace9.map (fun t =>
            (((syms.map (fun m => (refs m).latticeconstant)).sum / (syms.length : ℚ)) * t) ^ 3)).map
            (fun v => emt syms v))).2 -
        (syms.map (fun m => (refs m).energy_per_atom)).sum) / (syms.length : ℚ) ∧
    (alloy_relax emt eosFit cbrt refs syms).raw_score =
      -(alloy_relax emt eosFit cbrt refs syms).hof := by
  have h1 := sum_dedup_count (fun m => (refs m).latticeconstant) syms
  have h2 := sum_dedup_count (fun m => (refs m).energy_per_atom) syms
  constructor
  · show ((eosFit
        ((linspace9.map (fun t =>
          ((((syms.dedup).map (fun m => (syms.count m : ℚ) * (refs m).latticeconstant)).sum /
            (syms.length : ℚ)) * t) ^ 3)))
        ((linspace9.map (fun t =>
          ((((syms.dedup).map (fun m => (syms.count m : ℚ) * (refs m).latticeconstant)).sum /
            (syms.length : ℚ)) * t) ^ 3)).map (fun v => emt syms v))).2 -
      ((syms.dedup).map (fun m => (syms.count m : ℚ) * (refs m).energy_per_atom)).sum) /
        (syms.length : ℚ) = _
    rw [h1, h2]
  · rfl

lemma pool_accept_mut_none_store {α : Type} (g : PoolGA α) (st : PoolState α)
    (ch : PoolChoice α) (a3 : α) (hm : ch.do_mut = true) (hmu : ch.mutate a3 = none) :
    (pool_accept g st ch a3).store =
      add_relaxed_step (add_unrelaxed_candidate st.store a3 (some 0))
        st.store.next_id (g.ev a3).1 (g.ev a3).2 := by
  unfold pool_accept
  rw [hm, hmu]
  rfl

/-- C1: in every execution of the GA loops a candidate's raw score is
written only by the mark-relaxed operation, after its local relaxation
completes, so no unrelaxed candidate in the store ever carries a fitness;
moreover the population (through which candidates are compared by fitness)
contains only relaxed candidates.  The invariant holds of the initial
store and is preserved by the relax-all loop, by the pool GA main loop and
by the alloy GA generation loop. -/
theorem c1_fitness_only_after_relaxation (α : Type) (ev : α → α × ℚ)
    (l : List α) (g : PoolGA α) (chs : List (PoolChoice α)) (comp : α → α → Bool)
    (psize : Nat) (cs : List (AlloyChoice α)) (st : PoolState α) (s : GAStore α) :
    unrelaxed_no_score (init_store l) ∧
    (unrelaxed_no_score s → unrelaxed_no_score (relax_all ev s)) ∧
    (unrelaxed_no_score st.store → unrelaxed_no_score (pool_run g chs st).store) ∧
    (unrelaxed_no_score st.store →
      unrelaxed_no_score (alloy_generation ev comp psize st cs).store) ∧
    (∀ r ∈ pop_update comp psize s, r.relaxed = true) :=
  ⟨unrelaxed_no_score_init l,
   uns_relax_all ev s,
   uns_pool_run g chs st,
   uns_alloy_generation ev comp psize st cs,
   fun r hr => (pop_update_mem comp psize s r hr).1⟩

/-- Witness for C1 at a concrete store over rational structures. -/
theorem c1_witness :
    unrelaxed_no_score (init_store [(1 : ℚ), 2]) ∧
    unrelaxed_no_score (relax_all (fun a : ℚ => (a, -a))
      ⟨2, [⟨0, 1, false, none, none⟩, ⟨1, 2, true, some (-2), none⟩]⟩) :=
  ⟨(c1_fitness_only_after_relaxation ℚ (fun a => (a, -a)) [(1 : ℚ), 2]
      ⟨fun a => (a, -a), fun a b => decide (a = b), 2⟩ []
      (fun a b => decide (a = b)) 2 [] ⟨⟨0, []⟩, []⟩
      ⟨2, [⟨0, 1, false, none, none⟩, ⟨1, 2, true, some (-2), none⟩]⟩).1,
   (c1_fitness_only_after_relaxation ℚ (fun a => (a, -a)) [(1 : ℚ), 2]
      ⟨fun a => (a, -a), fun a b => decide (a = b), 2⟩ []
      (fun a b => decide (a = b)) 2 [] ⟨⟨0, []⟩, []⟩
      ⟨2, [⟨0, 1, false, none, none⟩, ⟨1, 2, true, some (-2), none⟩]⟩).2.1
     (by decide)⟩

/-- C6: the relax-all while loop terminates.  When the store has distinct
identifiers, each mark-relaxed step decreases the count of unrelaxed
candidates by exactly one; the loop (`relax_all` runs the body once per
initially-unrelaxed candidate, which suffices) ends with zero unrelaxed
candidates, after which the loop body is the identity. -/
theorem c6_relax_loop_terminates (α : Type) (ev : α → α × ℚ) (s : GAStore α) :
    (wf s → 0 < get_number_of_unrelaxed_candidates s →
      get_number_of_unrelaxed_candidates (relax_one ev s) + 1 =
        get_number_of_unrelaxed_candidates s) ∧
    get_number_of_unrelaxed_candidates (relax_all ev s) = 0 ∧
    relax_one ev (relax_all ev s) = relax_all ev s :=
  ⟨fun hwf h => count_relax_one_exact ev s hwf h,
   count_relax_all_zero ev s,
   relax_one_of_count_zero ev _ (count_relax_all_zero ev s)⟩

/-- Witness for C6 at a concrete store with one unrelaxed candidate. -/
theorem c6_witness :
    get_number_of_unrelaxed_candidates
        (relax_one (fun a : ℚ => (a, -a))
          ⟨2, [⟨0, 1, false, none, none⟩, ⟨1, 2, true, some (-2), none⟩]⟩) + 1 =
      get_number_of_unrelaxed_candidates
        (⟨2, [⟨0, 1, false, none, none⟩, ⟨1, 2, true, some (-2), none⟩]⟩ : GAStore ℚ) ∧
    get_number_of_unrelaxed_candidates
        (relax_all (fun a : ℚ => (a, -a))
          ⟨2, [⟨0, 1, false, none, none⟩, ⟨1, 2, true, some (-2), none⟩]⟩) = 0 :=
  ⟨(c6_relax_loop_terminates ℚ (fun a => (a, -a))
      ⟨2, [⟨0, 1, false, none, none⟩, ⟨1, 2, true, some (-2), none⟩]⟩).1
      (by decide) (by decide),
   (c6_relax_loop_terminates ℚ (fun a => (a, -a))
      ⟨2, [⟨0, 1, false, none, none⟩, ⟨1, 2, true, some (-2), none⟩]⟩).2.1⟩

/-- C4: the stored raw score of every candidate the GA marks relaxed is
minus the evaluator's energy after local relaxation.  In the pool GA the
candidate retrieved by the relax loop is recorded with raw score equal to
minus the potential energy of its BFGS-relaxed structure, and the
raw-score invariant is preserved by the relax-all loop and the main loop;
in the alloy GA the relax function records raw score equal to minus the
heat of formation hof = (ef - ei) / len(atoms), where ef comes from the
equation-of-state fit and ei is the sum of the per-symbol reference
energies. -/
theorem c4_raw_score_is_neg_energy (α : Type) (bfgs : α → α) (en : α → ℚ)
    (s : GAStore α) (r : GARecord α) :
    (get_an_unrelaxed_candidate s = some r →
      (⟨r.gaid, bfgs r.atoms, true, some (-(en (bfgs r.atoms))), r.origin⟩ : GARecord α) ∈
        (relax_one (bfgs_ev bfgs en) s).recs) ∧
    (score_ok en s → score_ok en (relax_all (bfgs_ev bfgs en) s)) ∧
    (∀ (g : PoolGA α) (chs : List (PoolChoice α)) (st : PoolState α),
      g.ev = bfgs_ev bfgs en → score_ok en st.store →
      score_ok en (pool_run g chs st).store) ∧
    (∀ (emt : List Metal → ℚ → ℚ) (eosFit : List ℚ → List ℚ → ℚ × ℚ)
        (cbrt : ℚ → ℚ) (refs : Metal → RefRow) (syms : List Metal),
      (alloy_relax emt eosFit cbrt refs syms).hof =
        ((eosFit
            (linspace9.map (fun t =>
              (((syms.map (fun m => (refs m).latticeconstant)).sum / (syms.length : ℚ)) * t) ^ 3))
            ((linspace9.map (fun t =>
              (((syms.map (fun m => (refs m).latticeconstant)).sum / (syms.length : ℚ)) * t) ^ 3)).map
              (fun v => emt syms v))).2 -
          (syms.map (fun m => (refs m).energy_per_atom)).sum) / (syms.length : ℚ) ∧
      (alloy_relax emt eosFit cbrt refs syms).raw_score =
        -(alloy_relax emt eosFit cbrt refs syms).hof) :=
  ⟨fun h => relax_one_found_mem (bfgs_ev bfgs en) s r h,
   score_ok_relax_all bfgs en s,
   fun g chs st hev h => score_ok_pool_run g bfgs en hev chs st h,
   fun emt eosFit cbrt refs syms => alloy_relax_formulas emt eosFit cbrt refs syms⟩

/-- Witness for C4: a concrete unrelaxed candidate is recorded with score
minus its energy, and a concrete alloy relax result scores minus its heat
of formation. -/
theorem c4_witness :
    (⟨0, (1 : ℚ), true, some (-1), none⟩ : GARecord ℚ) ∈
      (relax_one (bfgs_ev (fun a : ℚ => a) (fun a => a))
        ⟨2, [⟨0, 1, false, none, none⟩, ⟨1, 2, true, some (-2), none⟩]⟩).recs ∧
    (alloy_relax (fun _ _ => 0) (fun _ _ => (1, 1)) (fun v => v)
        (fun _ => ⟨1, 1⟩) [Metal.Al]).raw_score =
      -(alloy_relax (fun _ _ => 0) (fun _ _ => (1, 1)) (fun v => v)
        (fun _ => ⟨1, 1⟩) [Metal.Al]).hof :=
  ⟨(c4_raw_score_is_neg_energy ℚ (fun a => a) (fun a => a)
      ⟨2, [⟨0, 1, false, none, none⟩, ⟨1, 2, true, some (-2), none⟩]⟩
      ⟨0, 1, false, none, none⟩).1 (by decide),
   ((c4_raw_score_is_neg_energy ℚ (fun a => a) (fun a => a)
      ⟨2, [⟨0, 1, false, none, none⟩, ⟨1, 2, true, some (-2), none⟩]⟩
      ⟨0, 1, false, none, none⟩).2.2.2 (fun _ _ => 0) (fun _ _ => (1, 1))
      (fun v => v) (fun _ => ⟨1, 1⟩) [Metal.Al]).2⟩

/-- C5: the population derived by `update` is a size-bounded set of relaxed
candidates ordered by fitness descending: it has at most `psize` members,
every member is a relaxed record of the store, no two members are similar
under the comparator, the list is sorted with the highest raw score first,
and whenever the population is nonempty `get_two_candidates` returns two
of its members. -/
theorem c5_population_topN (α : Type) (comp : α → α → Bool) (psize : Nat)
    (s : GAStore α) :
    (pop_update comp psize s).length ≤ psize ∧
    (∀ r ∈ pop_update comp psize s, r.relaxed = true ∧ r ∈ s.recs) ∧
    (pop_update comp psize s).Pairwise (fun a b => comp a.atoms b.atoms = false) ∧
    List.Sorted score_ge (pop_update comp psize s) ∧
    (∀ i j : Nat, pop_update comp psize s ≠ [] →
      ∃ pr, get_two_candidates (pop_update comp psize s) i j = some pr ∧
        pr.1 ∈ pop_update comp psize s ∧ pr.2 ∈ pop_update comp psize s) := by
  refine ⟨pop_update_length_le comp psize s,
          fun r hr => pop_update_mem comp psize s r hr,
          pop_update_pairwise comp psize s,
          pop_update_sorted comp psize s,
          ?_⟩
  intro i j hne
  have hs := get_two_candidates_isSome (pop_update comp psize s) i j hne
  rcases Option.isSome_iff_exists.mp hs with ⟨pr, hpr⟩
  have hmem := get_two_candidates_mem (pop_update comp psize s) i j pr hpr
  exact ⟨pr, hpr, hmem.1, hmem.2⟩

/-- Witness for C5 at a concrete store of two relaxed candidates. -/
theorem c5_witness :
    (pop_update (fun a b : ℚ => decide (a = b)) 2
        ⟨2, [⟨0, 3, true, some (-3), none⟩, ⟨1, 5, true, some (-5), none⟩]⟩).length ≤ 2 ∧
    (∃ pr, get_two_candidates
        (pop_update (fun a b : ℚ => decide (a = b)) 2
          ⟨2, [⟨0, 3, true, some (-3), none⟩, ⟨1, 5, true, some (-5), none⟩]⟩) 0 1 = some pr ∧
      pr.1 ∈ pop_update (fun a b : ℚ => decide (a = b)) 2
        ⟨2, [⟨0, 3, true, some (-3), none⟩, ⟨1, 5, true, some (-5), none⟩]⟩ ∧
      pr.2 ∈ pop_update (fun a b : ℚ => decide (a = b)) 2
        ⟨2, [⟨0, 3, true, some (-3), none⟩, ⟨1, 5, true, some (-5), none⟩]⟩) :=
  ⟨(c5_population_topN ℚ (fun a b => decide (a = b)) 2
      ⟨2, [⟨0, 3, true, some (-3), none⟩, ⟨1, 5, true, some (-5), none⟩]⟩).1,
   (c5_population_topN ℚ (fun a b => decide (a = b)) 2
      ⟨2, [⟨0, 3, true, some (-3), none⟩, ⟨1, 5, true, some (-5), none⟩]⟩).2.2.2.2
     0 1 (by decide)⟩

/-- C7: the pairing operator returns an optional child; when it returns
failure on the two sampled parents, the pool-GA iteration leaves the store
and the population exactly as they were (`continue`), and running the
remaining iterations from the failed one is running them from the
unchanged state. -/
theorem c7_pairing_failure_atomic (α : Type) (g : PoolGA α) (st : PoolState α)
    (ch : PoolChoice α) (p : GARecord α × GARecord α) (rest : List (PoolChoice α)) :
    get_two_candidates st.pop ch.i1 ch.i2 = some p →
    ch.pairing p.1.atoms p.2.atoms = none →
    pool_iter g st ch = st ∧ pool_run g (ch :: rest) st = pool_run g rest st := by
  intro hg hp
  have h1 := pool_iter_pairing_none g st ch p hg hp
  refine ⟨h1, ?_⟩
  show pool_run g rest (pool_iter g st ch) = pool_run g rest st
  rw [h1]

/-- Witness for C7 with a concrete always-failing pairing operator. -/
theorem c7_witness :
    pool_iter ⟨fun a : ℚ => (a, -a), fun a b => decide (a = b), 2⟩
        ⟨⟨2, [⟨0, 3, true, some (-3), none⟩]⟩, [⟨0, 3, true, some (-3), none⟩]⟩
        ⟨0, 0, fun _ _ => none, false, fun _ => none⟩ =
      ⟨⟨2, [⟨0, 3, true, some (-3), none⟩]⟩, [⟨0, 3, true, some (-3), none⟩]⟩ :=
  (c7_pairing_failure_atomic ℚ ⟨fun a => (a, -a), fun a b => decide (a = b), 2⟩
    ⟨⟨2, [⟨0, 3, true, some (-3), none⟩]⟩, [⟨0, 3, true, some (-3), none⟩]⟩
    ⟨0, 0, fun _ _ => none, false, fun _ => none⟩
    (⟨0, 3, true, some (-3), none⟩, ⟨0, 3, true, some (-3), none⟩) []
    (by decide) (by decide)).1

/-- C8: when the mutation branch is entered and the mutation operator
fails, the iteration behaves exactly as if no mutation had been attempted,
and the unmutated paired child is still relaxed, assigned its raw score
and recorded as relaxed in the store under the identifier it received when
it was added. -/
theorem c8_mutation_failure_keeps_child (α : Type) (g : PoolGA α)
    (st : PoolState α) (ch : PoolChoice α) (p : GARecord α × GARecord α) (a3 : α) :
    get_two_candidates st.pop ch.i1 ch.i2 = some p →
    ch.pairing p.1.atoms p.2.atoms = some a3 →
    ch.do_mut = true →
    ch.mutate a3 = none →
    pool_iter g st ch = pool_iter g st { ch with do_mut := false } ∧
    (⟨st.store.next_id, (g.ev a3).1, true, some ((g.ev a3).2), some 0⟩ : GARecord α) ∈
      (pool_iter g st ch).store.recs := by
  intro hg hp hm hmu
  have he := pool_iter_pairing_some g st ch p a3 hg hp
  constructor
  · rw [he, pool_accept_mut_failure g st ch a3 hmu]
    have he2 := pool_iter_pairing_some g st { ch with do_mut := false } p a3 hg hp
    rw [he2]
  · rw [he]
    show _ ∈ (pool_accept g st ch a3).store.recs
    rw [pool_accept_mut_none_store g st ch a3 hm hmu]
    exact add_relaxed_new_mem st.store a3 (g.ev a3).1 (some 0) (g.ev a3).2

/-- Witness for C8 with a concrete always-failing mutation operator. -/
theorem c8_witness :
    pool_iter ⟨fun a : ℚ => (a, -a), fun a b => decide (a = b), 2⟩
        ⟨⟨2, [⟨0, 3, true, some (-3), none⟩]⟩, [⟨0, 3, true, some (-3), none⟩]⟩
        ⟨0, 0, fun a _ => some a, true, fun _ => none⟩ =
      pool_iter ⟨fun a : ℚ => (a, -a), fun a b => decide (a = b), 2⟩
        ⟨⟨2, [⟨0, 3, true, some (-3), none⟩]⟩, [⟨0, 3, true, some (-3), none⟩]⟩
        ⟨0, 0, fun a _ => some a, false, fun _ => none⟩ ∧
    (⟨2, (3 : ℚ), true, some (-3), some 0⟩ : GARecord ℚ) ∈
      (pool_iter ⟨fun a : ℚ => (a, -a), fun a b => decide (a = b), 2⟩
        ⟨⟨2, [⟨0, 3, true, some (-3), none⟩]⟩, [⟨0, 3, true, some (-3), none⟩]⟩
        ⟨0, 0, fun a _ => some a, true, fun _ => none⟩).store.recs :=
  (c8_mutation_failure_keeps_child ℚ ⟨fun a => (a, -a), fun a b => decide (a = b), 2⟩
    ⟨⟨2, [⟨0, 3, true, some (-3), none⟩]⟩, [⟨0, 3, true, some (-3), none⟩]⟩
    ⟨0, 0, fun a _ => some a, true, fun _ => none⟩
    (⟨0, 3, true, some (-3), none⟩, ⟨0, 3, true, some (-3), none⟩) 3
    rfl rfl rfl rfl)

/-- C2: re-running the store-populating script is idempotent.  When a row
with a key combination already exists, reserve returns no id and the step
is a no-op; a script run over keys that all already have rows performs
zero evaluation calls and leaves the database unchanged; and in
particular, re-running the whole script after a completed run performs
zero evaluation calls and leaves the database unchanged. -/
theorem c2_rerun_idempotent (f : AdsKeys → Nat) (db : AdsDB) (ks : List AdsKeys)
    (k : AdsKeys) :
    (has_row db k = true → reserve db k = (none, db) ∧ ads_step f db k = (db, 0)) ∧
    ((∀ k2 ∈ ks, has_row db k2 = true) → ads_script f db ks = (db, 0)) ∧
    (wf_ads db →
      ads_script f (ads_script f db ks).1 ks = ((ads_script f db ks).1, 0)) :=
  ⟨fun h => ⟨reserve_of_has db k h, ads_step_skip f db k h⟩,
   fun h => ads_script_skip_all f ks db h,
   fun hwf => ads_script_skip_all f ks _ (ads_script_covers f ks db hwf)⟩

/-- Witness for C2: a concrete two-key script run repeated from its own
result does nothing. -/
theorem c2_witness :
    ads_script (fun _ => 2)
        (ads_script (fun _ => 2) ⟨0, []⟩
          [⟨1, Metal.Al, Adsorbate.C⟩, ⟨2, Metal.Cu, Adsorbate.O⟩]).1
        [⟨1, Metal.Al, Adsorbate.C⟩, ⟨2, Metal.Cu, Adsorbate.O⟩] =
      ((ads_script (fun _ => 2) ⟨0, []⟩
          [⟨1, Metal.Al, Adsorbate.C⟩, ⟨2, Metal.Cu, Adsorbate.O⟩]).1, 0) :=
  (c2_rerun_idempotent (fun _ => 2) ⟨0, []⟩
    [⟨1, Metal.Al, Adsorbate.C⟩, ⟨2, Metal.Cu, Adsorbate.O⟩]
    ⟨1, Metal.Al, Adsorbate.C⟩).2.2 (by decide)

/-- C10: a completed reserve-compute-write sequence for a fresh key
combination leaves exactly one row with those keys, a real row whose atom
count is the calculation's (positive) result: in the adsorbates loop the
placeholder is deleted after the real row is written under a fresh id, and
in the clean-slab loop the real row overwrites the placeholder in place
via its reserved id. -/
theorem c10_one_real_row_per_key (f : AdsKeys → Nat) (db : AdsDB) (k : AdsKeys) :
    wf_ads db → has_row db k = false → 0 < f k →
    rows_with (ads_step f db k).1 k = [⟨db.next_id + 1, f k, some k⟩] ∧
    rows_with (clean_step f db k).1 k = [⟨db.next_id, f k, some k⟩] ∧
    (∀ r ∈ rows_with (ads_step f db k).1 k, 0 < r.natoms) ∧
    (∀ r ∈ rows_with (clean_step f db k).1 k, 0 < r.natoms) := by
  intro hwf h hf
  have h0 : db.rows.filter (fun r => r.keys == some k) = [] := rows_with_of_no db k h
  have h1 : rows_with (ads_step f db k).1 k = [⟨db.next_id + 1, f k, some k⟩] := by
    rw [ads_step_compute f db k hwf h]
    show (db.rows ++ [(⟨db.next_id + 1, f k, some k⟩ : AdsRow)]).filter
      (fun r => r.keys == some k) = _
    rw [List.filter_append, h0]
    simp
  have h2 : rows_with (clean_step f db k).1 k = [⟨db.next_id, f k, some k⟩] := by
    rw [clean_step_compute f db k hwf h]
    show (db.rows ++ [(⟨db.next_id, f k, some k⟩ : AdsRow)]).filter
      (fun r => r.keys == some k) = _
    rw [List.filter_append, h0]
    simp
  refine ⟨h1, h2, ?_, ?_⟩
  · intro r hr
    rw [h1] at hr
    simp only [List.mem_singleton] at hr
    rw [hr]
    exact hf
  · intro r hr
    rw [h2] at hr
    simp only [List.mem_singleton] at hr
    rw [hr]
    exact hf

/-- Witness for C10 on an empty database and a concrete key. -/
theorem c10_witness :
    rows_with (ads_step (fun _ => 2) ⟨0, []⟩ ⟨1, Metal.Al, Adsorbate.C⟩).1
        ⟨1, Metal.Al, Adsorbate.C⟩ = [⟨1, 2, some ⟨1, Metal.Al, Adsorbate.C⟩⟩] ∧
    rows_with (clean_step (fun _ => 2) ⟨0, []⟩ ⟨1, Metal.Al, Adsorbate.C⟩).1
        ⟨1, Metal.Al, Adsorbate.C⟩ = [⟨0, 2, some ⟨1, Metal.Al, Adsorbate.C⟩⟩] := by
  have h := c10_one_real_row_per_key (fun _ => 2) ⟨0, []⟩ ⟨1, Metal.Al, Adsorbate.C⟩
    (by decide) (by decide) (by decide)
  exact ⟨h.1, h.2.1⟩

/-- C3 counterexample: the claim that the scripts never remove a record
and that the set of identifiers in the store only grows is falsified by
the adsorption script's reserve-write-delete sequence: reserving key
(1, Al, C) on an empty database creates row id 0, and after the completed
step (which writes the real row and runs `del db2[id]`) id 0 is gone. -/
theorem c3_counterexample :
    (reserve ⟨0, []⟩ ⟨1, Metal.Al, Adsorbate.C⟩).1 = some 0 ∧
    0 ∈ ((reserve ⟨0, []⟩ ⟨1, Metal.Al, Adsorbate.C⟩).2.rows.map (fun r => r.rid)) ∧
    0 ∉ ((ads_step (fun _ => 2) ⟨0, []⟩ ⟨1, Metal.Al, Adsorbate.C⟩).1.rows.map
      (fun r => r.rid)) := by
  decide

/-- C3 amended: the GA store only grows -- adding candidates appends a
fresh identifier, marking relaxed preserves the identifier list, the
relax-all loop preserves it and the pool main loop only extends it; in
the adsorption script the only deletion is of the step's own just-created
empty placeholder, so every row present before a step -- in particular
every real row -- is still present after the step and after the whole
script. -/
theorem c3_amended_store_growth (α : Type) (s : GAStore α) (a : α)
    (d : Option Nat) (id : Nat) (sc : ℚ) (ev : α → α × ℚ) (g : PoolGA α)
    (chs : List (PoolChoice α)) (st : PoolState α) (f : AdsKeys → Nat)
    (db : AdsDB) (k : AdsKeys) (ks : List AdsKeys) :
    gaids (add_unrelaxed_candidate s a d) = gaids s ++ [s.next_id] ∧
    gaids (add_unrelaxed_step s a d) = gaids s ++ [s.next_id] ∧
    gaids (add_relaxed_step s id a sc) = gaids s ∧
    gaids (relax_all ev s) = gaids s ∧
    (∀ x ∈ gaids st.store, x ∈ gaids (pool_run g chs st).store) ∧
    (wf_ads db → ∀ r ∈ db.rows, r ∈ (ads_step f db k).1.rows) ∧
    (wf_ads db → ∀ r ∈ db.rows, r ∈ (ads_script f db ks).1.rows) :=
  ⟨gaids_add_unrelaxed s a d,
   gaids_add_unrelaxed_step s a d,
   gaids_add_relaxed s id a sc,
   gaids_relax_all ev s,
   fun x hx => gaids_pool_run_sub g chs st x hx,
   fun hwf r hr => rows_mono_ads_step f db k hwf r hr,
   fun hwf r hr => rows_mono_ads_script f ks db hwf r hr⟩

/-- Witness for the amended C3: concrete id-list preservation and row
preservation. -/
theorem c3_amended_witness :
    gaids (relax_all (fun a : ℚ => (a, -a))
        ⟨2, [⟨0, 1, false, none, none⟩, ⟨1, 2, true, some (-2), none⟩]⟩) =
      gaids (⟨2, [⟨0, 1, false, none, none⟩, ⟨1, 2, true, some (-2), none⟩]⟩ : GAStore ℚ) ∧
    (⟨0, 3, none⟩ : AdsRow) ∈
      (ads_step (fun _ => 2) ⟨1, [⟨0, 3, none⟩]⟩ ⟨1, Metal.Al, Adsorbate.C⟩).1.rows :=
  ⟨(c3_amended_store_growth ℚ
      ⟨2, [⟨0, 1, false, none, none⟩, ⟨1, 2, true, some (-2), none⟩]⟩
      0 none 0 0 (fun a => (a, -a)) ⟨fun a => (a, -a), fun a b => decide (a = b), 2⟩
      [] ⟨⟨0, []⟩, []⟩ (fun _ => 2) ⟨1, [⟨0, 3, none⟩]⟩
      ⟨1, Metal.Al, Adsorbate.C⟩ []).2.2.2.1,
   (c3_amended_store_growth ℚ
      ⟨2, [⟨0, 1, false, none, none⟩, ⟨1, 2, true, some (-2), none⟩]⟩
      0 none 0 0 (fun a => (a, -a)) ⟨fun a => (a, -a), fun a b => decide (a = b), 2⟩
      [] ⟨⟨0, []⟩, []⟩ (fun _ => 2) ⟨1, [⟨0, 3, none⟩]⟩
      ⟨1, Metal.Al, Adsorbate.C⟩ []).2.2.2.2.2.1 (by decide) ⟨0, 3, none⟩ (by decide)⟩

end AseGA
